import Mathlib

/-!
Verification of the Open/R core routing plane specification against a shallow
embedding of the repository's source.  Each section embeds the data model and
operations of one subsystem (KvStore value comparison and merge, the
inter-component message queues, the control-plane long-poll handler, the link
monitor, the FIB longest-match helper) and proves the specified properties
about them.
-/

set_option autoImplicit false

namespace OpenR

/- ===================== DEFINITIONS ===================== -/

/-- The unit of replication of the KvStore (thrift::Value, spec section 3).
Payload bytes are embedded as a `String` (byte-lexicographic comparison on the
C++ side corresponds to the lexicographic order on `String`). -/
structure Value where
  version : Int
  originatorId : String
  value : Option String
  ttl : Int
  ttlVersion : Int
  hash : Option Int
deriving DecidableEq, Repr

/-- Modelled from the spec: the body of KvStore::compareValues is not under
src (KvStore.h carries only its declaration and doc comment).  Comparison
order from the spec, section 3: the winner is the one with the higher
(version; then originator_id lexicographic; then value bytes; then
ttl_version).  If only hashes are present and versions/originators/hashes
match, values are equal (then the ttl_version tiebreak applies).  If bodies
are not present on both sides and a tiebreaker beyond version and originator
would require the bytes, the result is unknown (-2).  Returns 1 if v1 is
better, -1 if v2 is better, 0 if equal, -2 if unknown. -/
def compareValues (v1 v2 : Value) : Int :=
  if v1.version ≠ v2.version then
    (if v2.version < v1.version then 1 else -1)
  else if v1.originatorId ≠ v2.originatorId then
    (if v2.originatorId.data < v1.originatorId.data then 1 else -1)
  else
    match v1.value, v2.value with
    | some b1, some b2 =>
        if b1 ≠ b2 then (if b2.data < b1.data then 1 else -1)
        else if v1.ttlVersion ≠ v2.ttlVersion then
          (if v2.ttlVersion < v1.ttlVersion then 1 else -1)
        else 0
    | _, _ =>
        match v1.hash, v2.hash with
        | some h1, some h2 =>
            if h1 = h2 then
              (if v1.ttlVersion ≠ v2.ttlVersion then
                (if v2.ttlVersion < v1.ttlVersion then 1 else -1)
              else 0)
            else -2
        | _, _ => -2

/-- Both hashes present and equal. -/
def hashEq (v1 v2 : Value) : Bool :=
  match v1.hash, v2.hash with
  | some h1, some h2 => h1 == h2
  | _, _ => false

/-- The specification's comparison order, stated declaratively: v1 is strictly
better than v2 in the lexicographic order over (version, originator_id, value
bytes, ttl_version), given the two payload byte strings. -/
def lexBetter (v1 v2 : Value) (b1 b2 : String) : Prop :=
  v2.version < v1.version ∨
    (v1.version = v2.version ∧
      (v2.originatorId.data < v1.originatorId.data ∨
        (v1.originatorId = v2.originatorId ∧
          (b2.data < b1.data ∨ (b1 = b2 ∧ v2.ttlVersion < v1.ttlVersion)))))

/-- Modelled from the spec: the distinguished "infinity" TTL value that
disables expiry (spec section 3; the Constants header is not under src). -/
def kTtlInfinity : Int := 2147483647

/-- The bodies of the two values are knowably equal: versions and originators
agree and either both payloads are present and equal, or (payloads not both
present) both hashes are present and equal (spec section 3: "If only hashes
are present and versions/originators/hashes match, values are equal"). -/
def sameBody (v1 v2 : Value) : Bool :=
  v1.version == v2.version && v1.originatorId == v2.originatorId &&
    (match v1.value, v2.value with
     | some b1, some b2 => b1 == b2
     | _, _ =>
        match v1.hash, v2.hash with
        | some h1, some h2 => h1 == h2
        | _, _ => false)

/-- Modelled from the spec: per-key step of KvStore::mergeKeyValues, whose body
is not under src (KvStore.h carries only the declaration).  Spec section 4.2:
(1) if a filter rejects the key, drop; (2) if the key is absent locally, accept
unconditionally subject to the TTL check (ignore arrivals with ttl below a
threshold when the key does not already exist; the infinity value always
passes); (3) otherwise compare: winner replaces and enters the outbound delta;
an equal value with a strictly higher ttl_version refreshes TTL and
ttl_version but keeps the body and is not flooded; everything else (loser,
equal, unknown) leaves the store unchanged and is not flooded.  Returns the
new local entry and the outbound-delta entry. -/
def mergeEntry (filterOk : Bool) (thr : Int) (vLocal : Option Value)
    (vin : Value) : Option Value × Option Value :=
  if !filterOk then (vLocal, none)
  else
    match vLocal with
    | none =>
        if vin.ttl == kTtlInfinity || thr ≤ vin.ttl then (some vin, some vin)
        else (none, none)
    | some vl =>
        if compareValues vin vl = 1 then
          if sameBody vin vl then
            (some { vl with ttl := vin.ttl, ttlVersion := vin.ttlVersion }, none)
          else (some vin, some vin)
        else (some vl, none)

/-- Modelled from the spec: KvStore::mergeKeyValues.  The store and the
incoming update are maps from keys to values; every key of the update map is
processed independently by `mergeEntry`.  Returns the updated store together
with the outbound delta (the publication made out of the updated values, per
the doc comment in KvStore.h). -/
def mergeKeyValues (filters : String → Value → Bool) (thr : Int)
    (store update : String → Option Value) :
    (String → Option Value) × (String → Option Value) :=
  (fun k =>
    match update k with
    | none => store k
    | some vin => (mergeEntry (filters k vin) thr (store k) vin).1,
   fun k =>
    match update k with
    | none => none
    | some vin => (mergeEntry (filters k vin) thr (store k) vin).2)

/-- A sample KvStore value used to instantiate theorems on concrete inputs. -/
def demoValue : Value :=
  { version := 1, originatorId := "node-1", value := some "payload"
    ttl := 3600000, ttlVersion := 0, hash := none }

/-- Error type of the messaging queues (openr::messaging::QueueError). -/
inductive QueueError where
  | queueClosed
deriving DecidableEq, Repr

/-- Outcome of RWQueue::get (Queue-inl.h lines 73-96): an immediate value, an
immediate QUEUE_CLOSED error, or a blocked read request waiting on a baton. -/
inductive GetOutcome (α : Type) where
  | value (a : α)
  | closedNow
  | blocked
deriving DecidableEq, Repr

namespace RWQueue

/-- State of an openr::messaging::RWQueue: the buffered elements in arrival
order, the number of blocked pending reads, and the closed flag
(Queue-inl.h). -/
structure State (α : Type) where
  queue : List α
  pendingReads : Nat
  closed : Bool
deriving DecidableEq, Repr

/-- RWQueue::push (Queue-inl.h lines 48-71): on a closed queue do not enqueue
and return false; otherwise hand the value directly to the front pending read
if one exists, else append it to the buffer; return true.  The third component
is the value handed directly to a blocked reader, if any. -/
def push {α : Type} (s : State α) (v : α) : State α × Bool × Option α :=
  if s.closed then (s, false, none)
  else if 0 < s.pendingReads then
    ({ s with pendingReads := s.pendingReads - 1 }, true, some v)
  else
    ({ s with queue := s.queue ++ [v] }, true, none)

/-- RWQueue::get via getAnyImpl (Queue-inl.h lines 73-96 and 123-143): on a
closed queue return the QUEUE_CLOSED error immediately; with buffered data
return the front element; otherwise enqueue a pending read (the caller
blocks). -/
def get {α : Type} (s : State α) : State α × GetOutcome α :=
  if s.closed then (s, GetOutcome.closedNow)
  else
    match s.queue with
    | a :: rest => ({ s with queue := rest }, GetOutcome.value a)
    | [] => ({ s with pendingReads := s.pendingReads + 1 }, GetOutcome.blocked)

/-- RWQueue::close (Queue-inl.h lines 145-162): if not already closed, set the
closed flag, post every pending read's baton with no data (so each blocked
get returns QUEUE_CLOSED), and clear the buffered data.  The returned list
holds the results now delivered to the blocked readers. -/
def close {α : Type} (s : State α) : State α × List (Except QueueError α) :=
  if s.closed then (s, [])
  else
    ({ queue := [], pendingReads := 0, closed := true },
     List.replicate s.pendingReads (Except.error QueueError.queueClosed))

/-- An operation on an RWQueue, for reasoning about traces. -/
inductive Op (α : Type) where
  | push (v : α)
  | get
  | close
deriving DecidableEq, Repr

/-- Whether a list of queue operations contains a close. -/
def hasClose {α : Type} (ops : List (Op α)) : Bool :=
  ops.any (fun op => match op with | Op.close => true | _ => false)

/-- Run a list of operations on an RWQueue, collecting the values delivered to
the reader in chronological order (values handed out by `get` on a nonempty
buffer, and values handed directly to a blocked reader by `push`). -/
def runOps {α : Type} : State α → List (Op α) → State α × List α
  | s, [] => (s, [])
  | s, Op.push v :: rest =>
      let r := push s v
      let out := runOps r.1 rest
      (out.1, (match r.2.2 with | some a => [a] | none => []) ++ out.2)
  | s, Op.get :: rest =>
      let r := get s
      let out := runOps r.1 rest
      (out.1, (match r.2 with | GetOutcome.value a => [a] | _ => []) ++ out.2)
  | s, Op.close :: rest =>
      let r := close s
      runOps r.1 rest

/-- The values pushed by a list of operations, in order. -/
def pushedOf {α : Type} : List (Op α) → List α
  | [] => []
  | Op.push v :: rest => v :: pushedOf rest
  | _ :: rest => pushedOf rest

/-- The initial state of a freshly constructed RWQueue (Queue-inl.h line 41). -/
def initial (α : Type) : State α := { queue := [], pendingReads := 0, closed := false }

end RWQueue

/-- Association-list lookup with decidable key equality, modelling map lookup
(std::unordered_map find / at). -/
def alookup {κ ν : Type} [DecidableEq κ] (k : κ) : List (κ × ν) → Option ν
  | [] => none
  | (k1, v1) :: rest => if k1 = k then some v1 else alookup k rest

/-- Association-list update of the first binding of a key, inserting at the
end when absent (std::unordered_map operator[] assignment). -/
def aset {κ ν : Type} [DecidableEq κ] (k : κ) (v : ν) : List (κ × ν) → List (κ × ν)
  | [] => [(k, v)]
  | (k1, v1) :: rest => if k1 = k then (k, v) :: rest else (k1, v1) :: aset k v rest

/-- Association-list erasure of all bindings of a key (std::unordered_map
erase). -/
def aerase {κ ν : Type} [DecidableEq κ] (k : κ) : List (κ × ν) → List (κ × ν)
  | [] => []
  | (k1, v1) :: rest => if k1 = k then aerase k rest else (k1, v1) :: aerase k rest

/-- The marker of adjacency-database keys in the KvStore: keys of the form
adj:NODE (spec sections 3 and 4.2; Constants::kAdjDbMarker is not under src,
its value is pinned by the adj: keys used throughout the spec and tests). -/
def kAdjDbMarker : String := "adj:"

/-- Modelled from the spec: the fixed hold time of a pending long-poll request
in milliseconds (Constants::kLongPollReqHoldTime is not under src; its exact
magnitude is immaterial to the claims). -/
def kLongPollReqHoldTime : Int := 20000

/-- State of the long-poll machinery of OpenrCtrlHandler: the pending
requests, each a (request id, arrival timestamp in ms) pair
(longPollReqs_ in OpenrCtrlHandler.h). -/
structure LongPollState where
  reqs : List (Nat × Int)
deriving DecidableEq, Repr

/-- OpenrCtrlHandler::semifuture_longPollKvStoreAdj (OpenrCtrlHandler.cpp
lines 493-547).  The KvStore hash-filtered dump that the handler performs
synchronously is passed in as input (`dumpKeyVals` are the keys whose value
at the KvStore is newer than or absent from the caller's snapshot,
`tobeUpdatedKeys` the adj keys of the snapshot that the KvStore lacks or has
staler).  If either is nonempty the caller's adj-key hashes differ from the
KvStore's adj contents: complete with true immediately.  Otherwise store the
request as pending.  Returns the new state and `some b` when the request is
completed immediately with `b`, `none` when it is stored pending. -/
def longPollKvStoreAdj (dumpKeyVals : List (String × Value))
    (tobeUpdatedKeys : Option (List String)) (now : Int) (reqId : Nat)
    (st : LongPollState) : LongPollState × Option Bool :=
  if 0 < dumpKeyVals.length then (st, some true)
  else if 0 < (match tobeUpdatedKeys with | some l => l.length | none => 0) then
    (st, some true)
  else ({ reqs := st.reqs ++ [(reqId, now)] }, none)

/-- The adj-changed test of the kvStoreSubSock_ publication callback
(OpenrCtrlHandler.cpp lines 94-148): the publication carries at least one key
that starts with the adj marker and has a value present (a TTL-only refresh
carries no value). -/
def isAdjChanged (keyVals : List (String × Value)) : Bool :=
  keyVals.any (fun kv => kv.2.value.isSome && kAdjDbMarker.data.isPrefixOf kv.1.data)

/-- The action of the kvStoreSubSock_ publication callback on the pending
long-poll requests (OpenrCtrlHandler.cpp lines 94-148): when the publication
contains an adj key with a value, complete every pending request with true
and clear the map; otherwise complete with false and erase exactly the
requests whose age reaches the hold time.  Returns the new state and the
list of (request id, completion value) pairs completed now. -/
def processPublication (keyVals : List (String × Value)) (now : Int)
    (st : LongPollState) : LongPollState × List (Nat × Bool) :=
  if isAdjChanged keyVals then
    ({ reqs := [] }, st.reqs.map (fun r => (r.1, true)))
  else
    ({ reqs := st.reqs.filter (fun r => decide (now - r.2 < kLongPollReqHoldTime)) },
     (st.reqs.filter (fun r => decide (kLongPollReqHoldTime ≤ now - r.2))).map
       (fun r => (r.1, false)))

/-- KvStore peering parameters of a neighbor (thrift::PeerSpec). -/
structure PeerSpec where
  pubUrl : String
  cmdUrl : String
  supportFloodOptimization : Bool
deriving DecidableEq, Repr

/-- An adjacency record toward one neighbor on one local interface, the subset
of thrift::Adjacency fields that LinkMonitor.cpp reads or writes when
assembling the adjacency database: neighbor name, local interface, metric,
link overload bit. -/
structure AdjacencyT where
  otherNodeName : String
  ifName : String
  metric : Int
  isOverloaded : Bool
deriving DecidableEq, Repr

/-- Value stored in LinkMonitor's adjacencies_ map for one (neighbor,
interface) key: the KvStore peering spec, the assembled adjacency record,
the restarting bit set by neighborRestartingEvent, and the area. -/
structure AdjacencyValue where
  peerSpec : PeerSpec
  adjacency : AdjacencyT
  isRestarting : Bool
  area : String
deriving DecidableEq, Repr

/-- First component: neighbor node name; second: local interface name
(LinkMonitor's AdjacencyKey). -/
def AdjacencyKey : Type := String × String

/-- Insertion step of the neighborToIface accumulation in
LinkMonitor::getPeersFromAdjacencies (LinkMonitor.cpp lines 630-658): add the
neighbor with this interface if absent, else keep the smaller interface
name. -/
def insertMinIface : List (String × String) → String → String → List (String × String)
  | [], n, i => [(n, i)]
  | (m, j) :: rest, n, i =>
      if m = n then (if i.data < j.data then (m, i) :: rest else (m, j) :: rest)
      else (m, j) :: insertMinIface rest n i

/-- Body of the neighborToIface loop of LinkMonitor::getPeersFromAdjacencies
(LinkMonitor.cpp lines 635-651): skip adjacencies of a different area or
marked restarting, otherwise record the minimum interface per neighbor. -/
def peerStep (area : String) (acc : List (String × String))
    (kv : (String × String) × AdjacencyValue) : List (String × String) :=
  if kv.2.area ≠ area ∨ kv.2.isRestarting then acc
  else insertMinIface acc kv.1.1 kv.1.2

/-- LinkMonitor::getPeersFromAdjacencies (LinkMonitor.cpp lines 630-658).
Adjacencies of a different area or marked restarting are skipped; for each
remaining neighbor the lexicographically smallest local interface name is
selected, and the peer entry carries the peer spec of the adjacency stored
under (neighbor, smallest interface). -/
def getPeersFromAdjacencies
    (adjacencies : List ((String × String) × AdjacencyValue)) (area : String) :
    List (String × PeerSpec) :=
  let neighborToIface := adjacencies.foldl (peerStep area) []
  neighborToIface.filterMap
    (fun ni => (alookup (ni.1, ni.2) adjacencies).map (fun av => (ni.1, av.peerSpec)))

/-- The smaller of two interface names in the byte-lexicographic order (ties
are impossible to distinguish: equal data means equal strings). -/
def minStr (old new : String) : String :=
  if new.data < old.data then new else old

/-- Combination of two optional minima. -/
def combineMin : Option String → Option String → Option String
  | none, o => o
  | some j, none => some j
  | some j, some i => some (minStr j i)

/-- The smallest local interface name among the adjacencies of neighbor n that
are in the given area and not restarting — the value the neighborToIface
accumulation of getPeersFromAdjacencies computes per neighbor. -/
def minIfaceOf (area n : String) :
    List ((String × String) × AdjacencyValue) → Option String
  | [] => none
  | kv :: rest =>
      if kv.2.area = area ∧ kv.2.isRestarting = false ∧ kv.1.1 = n then
        combineMin (minIfaceOf area n rest) (some kv.1.2)
      else minIfaceOf area n rest

/-- LinkMonitor::neighborRestartingEvent (LinkMonitor.cpp lines 613-628): set
the restarting bit of the (neighbor, interface) entry if present; the entry
itself stays in the adjacency database. -/
def neighborRestartingEvent (remoteNodeName ifName : String)
    (adjacencies : List ((String × String) × AdjacencyValue)) :
    List ((String × String) × AdjacencyValue) :=
  adjacencies.map (fun kv =>
    if kv.1 = (remoteNodeName, ifName) then
      (kv.1, { kv.2 with isRestarting := true })
    else kv)

/-- Key of a per-adjacency metric override (thrift::AdjKey). -/
structure AdjKeyT where
  nodeName : String
  ifName : String
deriving DecidableEq, Repr

/-- The persisted link-monitor config (thrift::LinkMonitorConfig), the fields
LinkMonitor.cpp reads and writes. -/
structure LinkMonitorConfig where
  isOverloaded : Bool
  overloadedLinks : List String
  linkMetricOverrides : List (String × Int)
  adjMetricOverrides : List (AdjKeyT × Int)
  nodeLabel : Int
deriving DecidableEq, Repr

/-- The LinkMonitor state the override commands and the adjacency advertiser
touch: the known interface names (keys of interfaces_), the adjacency map
(adjacencies_), and the config (config_). -/
structure LMState where
  interfaces : List String
  adjacencies : List ((String × String) × AdjacencyValue)
  config : LinkMonitorConfig
deriving DecidableEq, Repr

/-- Result of an override command: the new state, whether an adjacency
advertisement was triggered (advertiseAdjacenciesThrottled_ invoked), and the
value delivered to the caller's future (the code fulfills the promise with
unit on every path of these handlers). -/
def LMReply : Type := LMState × Bool × Except String Unit

/-- LinkMonitor::setInterfaceOverload (LinkMonitor.cpp lines 1136-1179): an
unknown interface is logged and the promise fulfilled with unit, no state
change and no advertisement; a no-op change is skipped likewise; otherwise
the overloadedLinks set is updated and a throttled advertisement is
scheduled. -/
def setInterfaceOverload (st : LMState) (interfaceName : String)
    (isOverloaded : Bool) : LMReply :=
  if st.interfaces.contains interfaceName = false then (st, false, Except.ok ())
  else if isOverloaded && st.config.overloadedLinks.contains interfaceName then
    (st, false, Except.ok ())
  else if !isOverloaded && !st.config.overloadedLinks.contains interfaceName then
    (st, false, Except.ok ())
  else
    let links :=
      if isOverloaded then interfaceName :: st.config.overloadedLinks
      else st.config.overloadedLinks.filter (fun s => s != interfaceName)
    ({ st with config := { st.config with overloadedLinks := links } },
     true, Except.ok ())

/-- LinkMonitor::setLinkMetric (LinkMonitor.cpp lines 1181-1230): an unknown
interface is logged and the promise fulfilled with unit, no state change and
no advertisement; a no-op change is skipped; otherwise the override map is
updated and a throttled advertisement is scheduled. -/
def setLinkMetric (st : LMState) (interfaceName : String)
    (overrideMetric : Option Int) : LMReply :=
  if st.interfaces.contains interfaceName = false then (st, false, Except.ok ())
  else
    match overrideMetric with
    | some m =>
        if alookup interfaceName st.config.linkMetricOverrides = some m then
          (st, false, Except.ok ())
        else
          ({ st with config := { st.config with
              linkMetricOverrides := aset interfaceName m st.config.linkMetricOverrides } },
           true, Except.ok ())
    | none =>
        if alookup interfaceName st.config.linkMetricOverrides = none then
          (st, false, Except.ok ())
        else
          ({ st with config := { st.config with
              linkMetricOverrides := aerase interfaceName st.config.linkMetricOverrides } },
           true, Except.ok ())

/-- LinkMonitor::setAdjacencyMetric (LinkMonitor.cpp lines 1232-1290): an
adjacency (node, interface) absent from adjacencies_ is logged and the
promise fulfilled with unit, no state change and no advertisement; a no-op
change is skipped; otherwise the override map is updated and a throttled
advertisement is scheduled. -/
def setAdjacencyMetric (st : LMState) (interfaceName adjNodeName : String)
    (overrideMetric : Option Int) : LMReply :=
  let adjKey : AdjKeyT := { nodeName := adjNodeName, ifName := interfaceName }
  if (alookup (adjNodeName, interfaceName) st.adjacencies).isNone then
    (st, false, Except.ok ())
  else
    match overrideMetric with
    | some m =>
        if alookup adjKey st.config.adjMetricOverrides = some m then
          (st, false, Except.ok ())
        else
          ({ st with config := { st.config with
              adjMetricOverrides := aset adjKey m st.config.adjMetricOverrides } },
           true, Except.ok ())
    | none =>
        if alookup adjKey st.config.adjMetricOverrides = none then
          (st, false, Except.ok ())
        else
          ({ st with config := { st.config with
              adjMetricOverrides := aerase adjKey st.config.adjMetricOverrides } },
           true, Except.ok ())

/-- The empty LinkMonitor state: no known interfaces, no adjacencies, default
config. -/
def emptyLMState : LMState :=
  { interfaces := []
    adjacencies := []
    config :=
      { isOverloaded := false, overloadedLinks := [], linkMetricOverrides := []
        adjMetricOverrides := [], nodeLabel := 0 } }

/-- The adjacency database record published to the KvStore
(thrift::AdjacencyDatabase, the fields LinkMonitor.cpp sets). -/
structure AdjDb where
  thisNodeName : String
  isOverloaded : Bool
  nodeLabel : Int
  area : String
  adjacencies : List AdjacencyT
deriving DecidableEq, Repr

/-- Assembly of the adjacency database in LinkMonitor::advertiseAdjacencies
(LinkMonitor.cpp lines 740-768): per area-matching adjacency, set the link
overload bit from overloadedLinks, override the metric with the per-link
override if present, then with the per-adjacency override if present. -/
def buildAdjDb (st : LMState) (nodeId area : String) : AdjDb :=
  { thisNodeName := nodeId
    isOverloaded := st.config.isOverloaded
    nodeLabel := st.config.nodeLabel
    area := area
    adjacencies :=
      (st.adjacencies.filter (fun kv => kv.2.area == area)).map (fun kv =>
        let adj := kv.2.adjacency
        let adj1 := { adj with
          isOverloaded := st.config.overloadedLinks.contains adj.ifName,
          metric := (alookup adj.ifName st.config.linkMetricOverrides).getD adj.metric }
        { adj1 with
          metric := (alookup { nodeName := adj.otherNodeName, ifName := adj.ifName : AdjKeyT }
              st.config.adjMetricOverrides).getD adj1.metric }) }

/-- LinkMonitor::advertiseAdjacencies for one area (LinkMonitor.cpp lines
732-793): while the current time is before adjHoldUntilTimePoint_ the call
returns without publishing anything; afterwards the assembled adjacency
database is persisted to the KvStore.  `none` models the early return, `some
db` the publication of `db`. -/
def advertiseAdjacencies (now holdUntil : Int) (st : LMState)
    (nodeId area : String) : Option AdjDb :=
  if now < holdUntil then none
  else some (buildAdjDb st nodeId area)

/-- The hold-until time point computed in the LinkMonitor constructor
(LinkMonitor.cpp line 121): start time plus the configured hold time. -/
def adjHoldUntilTimePoint (startTime adjHoldTime : Int) : Int :=
  startTime + adjHoldTime

/-- A CIDR network: address value (an unsigned W-bit integer) and mask
length. -/
structure CidrT where
  addr : Nat
  len : Nat
deriving DecidableEq, Repr

/-- A route prefix matches an input network when its length is no longer than
the input's and the leading `len` bits of the two addresses agree (W is the
address width in bits). -/
def matchesRoute (W : Nat) (route input : CidrT) : Bool :=
  decide (route.len ≤ input.len) &&
    decide (route.addr >>> (W - route.len) = input.addr >>> (W - route.len))

/-- One step of the longest-match scan: replace the best candidate when the
route matches the input and is strictly longer than the current best. -/
def lpmStep (W : Nat) (input : CidrT) (best : Option CidrT) (r : CidrT) :
    Option CidrT :=
  if matchesRoute W r input &&
      (match best with | none => true | some b => decide (b.len < r.len)) then
    some r
  else best

/-- Modelled from the spec: Fib::longestPrefixMatch, whose body is not under
src (Fib.h carries only the declaration: "Perform longest prefix match among
all prefixes in route database"; behavior pinned by
FibTestFixture.longestPrefixMatchTest).  Scans the route table keeping the
matching prefix of greatest mask length. -/
def longestPrefixMatch (W : Nat) (input : CidrT) (routes : List CidrT) :
    Option CidrT :=
  routes.foldl (lpmStep W input) none

/-- Wrap of an integer to a signed 32-bit value, the effect of the C++ (int)
conversion on the common two's-complement targets. -/
def toInt32 (n : Int) : Int := (n + 2 ^ 31) % 2 ^ 32 - 2 ^ 31

/-- The RTT-to-metric transformation of LinkMonitor.cpp lines 37-44:
std::max((int)(rttUs / 100), (int)1), with C++ division truncating toward
zero and the (int) cast wrapping to 32 bits. -/
def getRttMetric (rttUs : Int) : Int :=
  max (toInt32 (Int.tdiv rttUs 100)) 1

/- ===================== THEOREMS ===================== -/

theorem toInt32_eq_self (n : Int) (hlo : -2 ^ 31 ≤ n) (hhi : n < 2 ^ 31) :
    toInt32 n = n := by
  unfold toInt32
  have h1 : (0 : Int) ≤ n + 2 ^ 31 := by omega
  have h2 : n + 2 ^ 31 < 2 ^ 32 := by omega
  rw [Int.emod_eq_of_lt h1 h2]
  omega

/-- Claim C10 (amended): whenever rttUs / 100 (C++ truncated division) fits in
a signed 32-bit integer — which covers every realistic RTT and in particular
all zero and negative inputs — getRttMetric returns max(rttUs / 100, 1); and
for every input whatsoever the returned metric is at least 1, never zero. -/
theorem getRttMetric_spec (rttUs : Int) :
    (-2 ^ 31 ≤ Int.tdiv rttUs 100 → Int.tdiv rttUs 100 < 2 ^ 31 →
      getRttMetric rttUs = max (Int.tdiv rttUs 100) 1)
    ∧ 1 ≤ getRttMetric rttUs := by
  constructor
  · intro hlo hhi
    unfold getRttMetric
    rw [toInt32_eq_self _ hlo hhi]
  · exact le_max_right _ _

theorem getRttMetric_spec_witness :
    getRttMetric (-500) = max (Int.tdiv (-500) 100) 1 ∧ 1 ≤ getRttMetric 250000 :=
  ⟨(getRttMetric_spec (-500)).1 (by decide) (by decide),
   (getRttMetric_spec 250000).2⟩

/-- Claim C10 counterexample: the claim as stated — getRttMetric rttUs =
max(rttUs / 100, 1) for every rttUs — fails once rttUs / 100 overflows the
(int) cast in the source: at rttUs = 2^31 * 100 the code returns 1 while the
claimed formula gives 2^31. -/
theorem getRttMetric_overflow_cex :
    getRttMetric (2147483648 * 100) = 1 ∧
    (getRttMetric (2147483648 * 100) ==
      max (Int.tdiv (2147483648 * 100) 100) 1) = false := by
  decide

/-- Claim C8: no adjacency database is published before the configured hold
time has elapsed after LinkMonitor start: advertiseAdjacencies called while
the current time is earlier than the hold-until time point (start time plus
hold time, as set in the constructor) publishes nothing, and any call that
does publish runs at or after hold expiry. -/
theorem advertiseAdjacencies_holdtime (now startTime holdTime : Int)
    (st : LMState) (nodeId area : String) :
    (now < startTime + holdTime →
      advertiseAdjacencies now (adjHoldUntilTimePoint startTime holdTime)
        st nodeId area = none)
    ∧ (∀ db, advertiseAdjacencies now (adjHoldUntilTimePoint startTime holdTime)
        st nodeId area = some db → startTime + holdTime ≤ now) := by
  unfold advertiseAdjacencies adjHoldUntilTimePoint
  constructor
  · intro h
    simp [h]
  · intro db h
    by_cases hlt : now < startTime + holdTime
    · simp [hlt] at h
    · omega

theorem advertiseAdjacencies_holdtime_witness :
    advertiseAdjacencies 5 (adjHoldUntilTimePoint 0 10) emptyLMState "n1" "0" = none :=
  (advertiseAdjacencies_holdtime 5 0 10 emptyLMState "n1" "0").1 (by decide)

/-- Claim C7 (amended): when setInterfaceOverload, setLinkMetric or
setAdjacencyMetric is invoked for an interface or adjacency unknown to
LinkMonitor, the command is logged and the caller's future is fulfilled with
plain unit success — no typed error is returned — and no state is mutated:
the config is unchanged and no adjacency advertisement is triggered. -/
theorem setOverrides_unknown_noMutation (st : LMState)
    (ifaceName nodeName : String) (b : Bool) (m : Option Int) :
    (st.interfaces.contains ifaceName = false →
      setInterfaceOverload st ifaceName b = (st, false, Except.ok ())
      ∧ setLinkMetric st ifaceName m = (st, false, Except.ok ()))
    ∧ ((alookup (nodeName, ifaceName) st.adjacencies).isNone = true →
      setAdjacencyMetric st ifaceName nodeName m = (st, false, Except.ok ())) := by
  constructor
  · intro h
    constructor
    · unfold setInterfaceOverload
      rw [h]
      simp
    · unfold setLinkMetric
      rw [h]
      simp
  · intro h
    unfold setAdjacencyMetric
    rw [h]
    simp

theorem setOverrides_unknown_noMutation_witness :
    setInterfaceOverload emptyLMState "eth0" true = (emptyLMState, false, Except.ok ())
    ∧ setAdjacencyMetric emptyLMState "eth0" "n9" (some 5)
        = (emptyLMState, false, Except.ok ()) :=
  ⟨((setOverrides_unknown_noMutation emptyLMState "eth0" "n9" true (some 5)).1
      (by decide)).1,
   (setOverrides_unknown_noMutation emptyLMState "eth0" "n9" true (some 5)).2
      (by decide)⟩

/-- Claim C7 counterexample: at a state with no known interfaces and no
adjacencies, each of the three override commands invoked for the unknown
name completes with ordinary unit success — the result carries no typed
error — refuting the claim that a typed error is returned to the caller. -/
theorem setOverrides_unknown_cex :
    emptyLMState.interfaces.contains "eth0" = false
    ∧ (setInterfaceOverload emptyLMState "eth0" true).2.2.isOk = true
    ∧ (setLinkMetric emptyLMState "eth0" (some 5)).2.2.isOk = true
    ∧ (setAdjacencyMetric emptyLMState "eth0" "n9" (some 5)).2.2.isOk = true := by
  decide

theorem runOps_closed {α : Type} (ops : List (RWQueue.Op α))
    (s : RWQueue.State α) (h : s.closed = true) :
    RWQueue.runOps s ops = (s, []) := by
  induction ops with
  | nil => rfl
  | cons op rest ih =>
    cases op with
    | push v => simp [RWQueue.runOps, RWQueue.push, h, ih]
    | get => simp [RWQueue.runOps, RWQueue.get, h, ih]
    | close => simp [RWQueue.runOps, RWQueue.close, h, ih]

/-- Claim C3: after RWQueue::close, every reader blocked in get receives the
QUEUE_CLOSED end-of-stream error, the buffered data is discarded, every
subsequent get returns QUEUE_CLOSED, every subsequent push returns false
leaving the state unchanged, and no operation sequence on the closed queue
ever delivers an element. -/
theorem rwqueue_close_spec (α : Type) (s : RWQueue.State α) (v : α)
    (h : s.closed = false) :
    (RWQueue.close s).2
        = List.replicate s.pendingReads (Except.error QueueError.queueClosed)
    ∧ (RWQueue.close s).1 = { queue := [], pendingReads := 0, closed := true }
    ∧ RWQueue.get (RWQueue.close s).1 = ((RWQueue.close s).1, GetOutcome.closedNow)
    ∧ RWQueue.push (RWQueue.close s).1 v = ((RWQueue.close s).1, false, none)
    ∧ ∀ ops : List (RWQueue.Op α), (RWQueue.runOps (RWQueue.close s).1 ops).2 = [] := by
  have hc : RWQueue.close s
      = ({ queue := [], pendingReads := 0, closed := true },
         List.replicate s.pendingReads (Except.error QueueError.queueClosed)) := by
    unfold RWQueue.close
    rw [h]
    simp
  rw [hc]
  refine ⟨rfl, rfl, ?_, ?_, ?_⟩
  · simp [RWQueue.get]
  · simp [RWQueue.push]
  · intro ops
    rw [runOps_closed ops _ rfl]

theorem rwqueue_close_spec_witness :
    (RWQueue.close ({ queue := [5, 6], pendingReads := 0, closed := false } :
        RWQueue.State Nat)).1
      = { queue := [], pendingReads := 0, closed := true }
    ∧ (RWQueue.runOps
        (RWQueue.close
          ({ queue := [5, 6], pendingReads := 0, closed := false } :
            RWQueue.State Nat)).1
        [RWQueue.Op.get]).2 = [] :=
  ⟨(rwqueue_close_spec Nat { queue := [5, 6], pendingReads := 0, closed := false }
      7 rfl).2.1,
   (rwqueue_close_spec Nat { queue := [5, 6], pendingReads := 0, closed := false }
      7 rfl).2.2.2.2 [RWQueue.Op.get]⟩

theorem runOps_fifo_aux {α : Type} (ops : List (RWQueue.Op α))
    (s : RWQueue.State α) (hclosed : s.closed = false)
    (hpend : 0 < s.pendingReads → s.queue = [])
    (hnc : RWQueue.hasClose ops = false) :
    (RWQueue.runOps s ops).2 ++ (RWQueue.runOps s ops).1.queue
      = s.queue ++ RWQueue.pushedOf ops := by
  induction ops generalizing s with
  | nil => simp [RWQueue.runOps, RWQueue.pushedOf]
  | cons op rest ih =>
    have hnc2 : RWQueue.hasClose rest = false := by
      unfold RWQueue.hasClose at hnc ⊢
      simp only [List.any_cons, Bool.or_eq_false_iff] at hnc
      exact hnc.2
    cases op with
    | close =>
      exfalso
      unfold RWQueue.hasClose at hnc
      simp at hnc
    | push v =>
      by_cases hp : 0 < s.pendingReads
      · have hq : s.queue = [] := hpend hp
        have hstep : RWQueue.push s v
            = ({ s with pendingReads := s.pendingReads - 1 }, true, some v) := by
          unfold RWQueue.push
          rw [hclosed]
          simp [hp]
        have ihr := ih { s with pendingReads := s.pendingReads - 1 } hclosed
          (fun _ => hq) hnc2
        simp only [RWQueue.runOps, hstep, RWQueue.pushedOf]
        simp only [hq] at ihr ⊢
        simp [ihr]
      · have hstep : RWQueue.push s v
            = ({ s with queue := s.queue ++ [v] }, true, none) := by
          unfold RWQueue.push
          rw [hclosed]
          simp [hp]
        have ihr := ih { s with queue := s.queue ++ [v] } hclosed
          (fun h2 => absurd h2 hp) hnc2
        simp only [RWQueue.runOps, hstep, RWQueue.pushedOf]
        simp at ihr
        simp [ihr]
    | get =>
      cases hq : s.queue with
      | nil =>
        have hstep : RWQueue.get s
            = ({ s with pendingReads := s.pendingReads + 1 }, GetOutcome.blocked) := by
          unfold RWQueue.get
          rw [hclosed]
          simp [hq]
        have ihr := ih { s with pendingReads := s.pendingReads + 1 } hclosed
          (fun _ => hq) hnc2
        simp only [RWQueue.runOps, hstep, RWQueue.pushedOf]
        simp only [hq] at ihr ⊢
        simp [ihr]
      | cons a restq =>
        have hstep : RWQueue.get s
            = ({ s with queue := restq }, GetOutcome.value a) := by
          unfold RWQueue.get
          rw [hclosed]
          simp [hq]
        have hpend2 : 0 < ({ s with queue := restq } : RWQueue.State α).pendingReads →
            ({ s with queue := restq } : RWQueue.State α).queue = [] := by
          intro h2
          exact absurd (hpend h2) (by simp [hq])
        have ihr := ih { s with queue := restq } hclosed hpend2 hnc2
        simp only [RWQueue.runOps, hstep, RWQueue.pushedOf]
        simp at ihr
        simp [ihr, hq]

/-- Claim C4: per-reader FIFO of the replicate queue (each reader of a
replicate queue owns one RWQueue into which every pushed element is
replicated): for every close-free operation trace from a fresh queue, the
elements delivered to the reader followed by the elements still buffered are
exactly the pushed elements in push order — so any two elements both received
are received in push order, and no element pushed while the reader is
attached is dropped or reordered. -/
theorem rwqueue_fifo_order (α : Type) (ops : List (RWQueue.Op α))
    (hnc : RWQueue.hasClose ops = false) :
    (RWQueue.runOps (RWQueue.initial α) ops).2
      ++ (RWQueue.runOps (RWQueue.initial α) ops).1.queue
      = RWQueue.pushedOf ops := by
  have h := runOps_fifo_aux ops (RWQueue.initial α) rfl (fun _ => rfl) hnc
  simpa [RWQueue.initial] using h

theorem rwqueue_fifo_order_witness :
    (RWQueue.runOps (RWQueue.initial Nat)
        [RWQueue.Op.push 1, RWQueue.Op.push 2, RWQueue.Op.get, RWQueue.Op.get,
         RWQueue.Op.get, RWQueue.Op.push 3]).2
      ++ (RWQueue.runOps (RWQueue.initial Nat)
        [RWQueue.Op.push 1, RWQueue.Op.push 2, RWQueue.Op.get, RWQueue.Op.get,
         RWQueue.Op.get, RWQueue.Op.push 3]).1.queue
      = RWQueue.pushedOf
        [RWQueue.Op.push 1, RWQueue.Op.push 2, RWQueue.Op.get, RWQueue.Op.get,
         RWQueue.Op.get, RWQueue.Op.push 3] :=
  rwqueue_fifo_order Nat
    [RWQueue.Op.push 1, RWQueue.Op.push 2, RWQueue.Op.get, RWQueue.Op.get,
     RWQueue.Op.get, RWQueue.Op.push 3] (by decide)

/-- Claim C5: longPollKvStoreAdj completes with true immediately when the
caller's adj-key hashes differ from the KvStore's adj contents (the
hash-filtered dump or its to-be-updated key list is nonempty); otherwise the
request is stored pending.  A later publication carrying at least one adj key
with a value (not a TTL-only refresh) completes every pending request with
true and clears the map; a publication without such a key completes with
false exactly the pending requests whose age reaches the fixed hold time,
removing them and only them. -/
theorem longPollKvStoreAdj_spec (dumpKeyVals : List (String × Value))
    (tobe : Option (List String)) (now : Int) (reqId : Nat)
    (st : LongPollState) (keyVals : List (String × Value)) :
    ((0 < dumpKeyVals.length ∨
        0 < (match tobe with | some l => l.length | none => 0)) →
      longPollKvStoreAdj dumpKeyVals tobe now reqId st = (st, some true))
    ∧ (dumpKeyVals = [] →
        (match tobe with | some l => l.length | none => 0) = 0 →
        longPollKvStoreAdj dumpKeyVals tobe now reqId st
          = ({ reqs := st.reqs ++ [(reqId, now)] }, none))
    ∧ (isAdjChanged keyVals = true ↔
        ∃ kv, kv ∈ keyVals ∧ kv.2.value.isSome = true
          ∧ kAdjDbMarker.data.isPrefixOf kv.1.data = true)
    ∧ (isAdjChanged keyVals = true →
        (processPublication keyVals now st).1 = { reqs := [] }
        ∧ ∀ r ∈ st.reqs, (r.1, true) ∈ (processPublication keyVals now st).2)
    ∧ (isAdjChanged keyVals = false →
        (∀ r ∈ st.reqs,
          (kLongPollReqHoldTime ≤ now - r.2 →
            (r.1, false) ∈ (processPublication keyVals now st).2)
          ∧ (now - r.2 < kLongPollReqHoldTime →
            r ∈ (processPublication keyVals now st).1.reqs))
        ∧ (∀ c ∈ (processPublication keyVals now st).2, c.2 = false)
        ∧ (∀ r ∈ (processPublication keyVals now st).1.reqs,
            r ∈ st.reqs ∧ now - r.2 < kLongPollReqHoldTime)) := by
  refine ⟨?_, ?_, ?_, ?_, ?_⟩
  · intro h
    unfold longPollKvStoreAdj
    rcases h with h | h
    · simp [h]
    · rcases tobe with _ | l
      · simp at h
      · by_cases hd : 0 < dumpKeyVals.length
        · simp [hd]
        · simp only at h
          simp [hd, h]
  · intro h1 h2
    unfold longPollKvStoreAdj
    subst h1
    rcases tobe with _ | l
    · simp
    · simp only at h2
      simp [h2]
  · unfold isAdjChanged
    simp [List.any_eq_true, Bool.and_eq_true]
  · intro h
    unfold processPublication
    rw [h]
    constructor
    · simp
    · intro r hr
      simp only [if_true]
      exact List.mem_map.mpr ⟨r, hr, rfl⟩
  · intro h
    unfold processPublication
    rw [h]
    refine ⟨?_, ?_, ?_⟩
    · intro r hr
      constructor
      · intro hexp
        simp only [Bool.false_eq_true, if_false]
        exact List.mem_map.mpr ⟨r, List.mem_filter.mpr ⟨hr, by simpa using hexp⟩, rfl⟩
      · intro hfresh
        simp only [Bool.false_eq_true, if_false]
        exact List.mem_filter.mpr ⟨hr, by simpa using hfresh⟩
    · intro c hc
      simp only [Bool.false_eq_true, if_false] at hc
      rcases List.mem_map.mp hc with ⟨r, _, hrc⟩
      rw [← hrc]
    · intro r hr
      simp only [Bool.false_eq_true, if_false] at hr
      have h2 := List.mem_filter.mp hr
      exact ⟨h2.1, by simpa using h2.2⟩

theorem longPollKvStoreAdj_spec_witness :
    longPollKvStoreAdj [("adj:node-1", demoValue)] none 100 1
        { reqs := [] } = ({ reqs := [] }, some true)
    ∧ (processPublication [("adj:node-1", demoValue)] 100
        { reqs := [(1, 0)] }).1 = { reqs := [] }
    ∧ (1, true) ∈ (processPublication [("adj:node-1", demoValue)] 100
        { reqs := [(1, 0)] }).2 :=
  ⟨(longPollKvStoreAdj_spec [("adj:node-1", demoValue)] none 100 1
      { reqs := [] } []).1 (Or.inl (by decide)),
   ((longPollKvStoreAdj_spec [("adj:node-1", demoValue)] none 100 1
      { reqs := [(1, 0)] } [("adj:node-1", demoValue)]).2.2.2.1
      (by decide)).1,
   ((longPollKvStoreAdj_spec [("adj:node-1", demoValue)] none 100 1
      { reqs := [(1, 0)] } [("adj:node-1", demoValue)]).2.2.2.1
      (by decide)).2 (1, 0) (by decide)⟩

theorem compareValues_self (v : Value) :
    compareValues v v = 0 ∨ compareValues v v = -2 := by
  rcases hv : v.value with _ | b <;> rcases hh : v.hash with _ | h <;>
    simp [compareValues, hv, hh]

theorem mergeEntry_idem (fOk : Bool) (thr : Int) (l : Option Value)
    (vin : Value) :
    mergeEntry fOk thr (mergeEntry fOk thr l vin).1 vin
      = ((mergeEntry fOk thr l vin).1, none) := by
  cases fOk with
  | false => simp [mergeEntry]
  | true =>
    cases l with
    | none =>
      by_cases ht : (vin.ttl == kTtlInfinity || decide (thr ≤ vin.ttl)) = true
      · simp only [mergeEntry, Bool.not_true, Bool.false_eq_true, if_false, ht, if_true]
        rcases compareValues_self vin with h0 | h0 <;> simp [h0]
      · simp [mergeEntry, ht]
    | some vl =>
      by_cases hc : compareValues vin vl = 1
      · by_cases hs : sameBody vin vl = true
        · have hsb : sameBody vin { vl with ttl := vin.ttl, ttlVersion := vin.ttlVersion } = true := by
            unfold sameBody at hs ⊢
            simpa using hs
          by_cases hc2 : compareValues vin { vl with ttl := vin.ttl, ttlVersion := vin.ttlVersion } = 1
          · simp [mergeEntry, hc, hs, hc2, hsb]
          · simp [mergeEntry, hc, hs, hc2]
        · simp only [mergeEntry, Bool.not_true, Bool.false_eq_true, if_false, hc, if_true, hs]
          rcases compareValues_self vin with h0 | h0 <;> simp [h0]
      · simp [mergeEntry, hc]

/-- Claim C1: compareValues decides the winner by comparing, in order,
version, then originator id byte-lexicographically, then value bytes, then
ttl version, returning 1 when v1 is better, -1 when v2 is better and 0 when
equal: with both bodies present the result characterizes exactly the strict
lexicographic order over the quadruple; a version difference or an
originator difference is decided even without bodies; and when the bodies
are absent on both sides and the tiebreak beyond version and originator
cannot be resolved by equal hashes, the result is the unknown value -2
(equal hashes resolve the bytes tiebreak and leave the ttl-version
comparison). -/
theorem compareValues_spec (v1 v2 : Value) :
    (∀ b1 b2, v1.value = some b1 → v2.value = some b2 →
      ((compareValues v1 v2 = 1 ↔ lexBetter v1 v2 b1 b2)
       ∧ (compareValues v1 v2 = -1 ↔ lexBetter v2 v1 b2 b1)
       ∧ (compareValues v1 v2 = 0 ↔
           (v1.version = v2.version ∧ v1.originatorId = v2.originatorId
             ∧ b1 = b2 ∧ v1.ttlVersion = v2.ttlVersion))))
    ∧ (v1.version ≠ v2.version →
        compareValues v1 v2 = if v2.version < v1.version then 1 else -1)
    ∧ (v1.version = v2.version → v1.originatorId ≠ v2.originatorId →
        compareValues v1 v2
          = if v2.originatorId.data < v1.originatorId.data then 1 else -1)
    ∧ (v1.value = none → v2.value = none → v1.version = v2.version →
        v1.originatorId = v2.originatorId →
        (hashEq v1 v2 = true →
          compareValues v1 v2 =
            if v1.ttlVersion = v2.ttlVersion then 0
            else if v2.ttlVersion < v1.ttlVersion then 1 else -1)
        ∧ (hashEq v1 v2 = false → compareValues v1 v2 = -2)) := by
  refine ⟨?_, ?_, ?_, ?_⟩
  · intro b1 b2 h1 h2
    rcases lt_trichotomy v1.version v2.version with hv | hv | hv
    · refine ⟨?_, ?_, ?_⟩ <;>
        norm_num [compareValues, lexBetter, h1, h2, hv, hv.ne, hv.ne', lt_asymm hv]
    · rcases lt_trichotomy v1.originatorId.data v2.originatorId.data with ho | ho | ho
      · have hos : v1.originatorId ≠ v2.originatorId :=
          fun hEq => ho.ne (congrArg String.data hEq)
        refine ⟨?_, ?_, ?_⟩ <;>
          norm_num [compareValues, lexBetter, h1, h2, hv, hos, Ne.symm hos, ho,
            ho.ne, ho.ne', lt_asymm ho]
      · have hos : v1.originatorId = v2.originatorId := String.ext ho
        rcases lt_trichotomy b1.data b2.data with hb | hb | hb
        · have hbs : b1 ≠ b2 := fun hEq => hb.ne (congrArg String.data hEq)
          refine ⟨?_, ?_, ?_⟩ <;>
            norm_num [compareValues, lexBetter, h1, h2, hv, hos, hbs, Ne.symm hbs,
              hb, hb.ne, hb.ne', lt_asymm hb]
        · have hbs : b1 = b2 := String.ext hb
          subst hbs
          rcases lt_trichotomy v1.ttlVersion v2.ttlVersion with ht | ht | ht
          · refine ⟨?_, ?_, ?_⟩ <;>
              norm_num [compareValues, lexBetter, h1, h2, hv, hos, ht, ht.ne,
                ht.ne', lt_asymm ht]
          · refine ⟨?_, ?_, ?_⟩ <;>
              norm_num [compareValues, lexBetter, h1, h2, hv, hos, ht]
          · refine ⟨?_, ?_, ?_⟩ <;>
              norm_num [compareValues, lexBetter, h1, h2, hv, hos, ht, ht.ne,
                ht.ne', lt_asymm ht]
        · have hbs : b1 ≠ b2 := fun hEq => hb.ne' (congrArg String.data hEq)
          refine ⟨?_, ?_, ?_⟩ <;>
            norm_num [compareValues, lexBetter, h1, h2, hv, hos, hbs, Ne.symm hbs,
              hb, hb.ne, hb.ne', lt_asymm hb]
      · have hos : v1.originatorId ≠ v2.originatorId :=
          fun hEq => ho.ne' (congrArg String.data hEq)
        refine ⟨?_, ?_, ?_⟩ <;>
          norm_num [compareValues, lexBetter, h1, h2, hv, hos, Ne.symm hos, ho,
            ho.ne, ho.ne', lt_asymm ho]
    · refine ⟨?_, ?_, ?_⟩ <;>
        norm_num [compareValues, lexBetter, h1, h2, hv, hv.ne, hv.ne', lt_asymm hv]
  · intro h
    unfold compareValues
    rw [if_pos h]
  · intro hv ho
    unfold compareValues
    rw [if_neg (by simp [hv]), if_pos ho]
  · intro h1 h2 hv ho
    have hmain : compareValues v1 v2 =
        (match v1.hash, v2.hash with
         | some a, some b =>
             if a = b then
               (if v1.ttlVersion ≠ v2.ttlVersion then
                 (if v2.ttlVersion < v1.ttlVersion then 1 else -1)
               else 0)
             else -2
         | _, _ => -2) := by
      unfold compareValues
      rw [if_neg (by simp [hv]), if_neg (by simp [ho])]
      simp only [h1, h2]
    constructor
    · intro hh
      rcases hha : v1.hash with _ | a <;> rcases hhb : v2.hash with _ | b <;>
        rw [hashEq, hha, hhb] at hh
      · exact absurd hh (by simp)
      · exact absurd hh (by simp)
      · exact absurd hh (by simp)
      · have hab : a = b := by simpa using hh
        rw [hmain, hha, hhb]
        subst hab
        by_cases ht : v1.ttlVersion = v2.ttlVersion <;> simp [ht]
    · intro hh
      rcases hha : v1.hash with _ | a <;> rcases hhb : v2.hash with _ | b <;>
        rw [hmain, hha, hhb]
      · have hab : a ≠ b := by
          rw [hashEq, hha, hhb] at hh
          simpa using hh
        simp [hab]

theorem compareValues_spec_witness :
    compareValues
      { version := 1, originatorId := "n", value := some "b", ttl := 10,
        ttlVersion := 0, hash := none }
      { version := 1, originatorId := "n", value := some "a", ttl := 10,
        ttlVersion := 0, hash := none } = 1
    ∧ compareValues
      { version := 1, originatorId := "n", value := none, ttl := 10,
        ttlVersion := 0, hash := some 7 }
      { version := 1, originatorId := "n", value := none, ttl := 10,
        ttlVersion := 0, hash := some 9 } = -2 :=
  ⟨((compareValues_spec
      { version := 1, originatorId := "n", value := some "b", ttl := 10,
        ttlVersion := 0, hash := none }
      { version := 1, originatorId := "n", value := some "a", ttl := 10,
        ttlVersion := 0, hash := none }).1 "b" "a" rfl rfl).1.mpr
      (Or.inr ⟨rfl, Or.inr ⟨rfl, Or.inl (by decide)⟩⟩),
   ((compareValues_spec
      { version := 1, originatorId := "n", value := none, ttl := 10,
        ttlVersion := 0, hash := some 7 }
      { version := 1, originatorId := "n", value := none, ttl := 10,
        ttlVersion := 0, hash := some 9 }).2.2.2 rfl rfl rfl rfl).2 (by decide)⟩

/-- Claim C2: mergeKeyValues is idempotent.  For every store state x and
every incoming update map y, applying y again to the store that already
resulted from merging y changes nothing — the store is unchanged and the
second application produces no outbound delta. -/
theorem mergeKeyValues_idem (filters : String → Value → Bool) (thr : Int)
    (store update : String → Option Value) :
    mergeKeyValues filters thr (mergeKeyValues filters thr store update).1 update
      = ((mergeKeyValues filters thr store update).1, fun _ => none) := by
  unfold mergeKeyValues
  refine Prod.ext ?_ ?_
  · funext k
    cases hu : update k with
    | none => simp [hu]
    | some vin =>
      simp only [hu]
      rw [mergeEntry_idem (filters k vin) thr (store k) vin]
  · funext k
    cases hu : update k with
    | none => simp [hu]
    | some vin =>
      simp only [hu]
      rw [mergeEntry_idem (filters k vin) thr (store k) vin]

theorem minStr_comm (a b : String) : minStr a b = minStr b a := by
  unfold minStr
  rcases lt_trichotomy a.data b.data with h | h | h
  · rw [if_neg (lt_asymm h), if_pos h]
  · rw [String.ext h]
  · rw [if_pos h, if_neg (lt_asymm h)]

theorem minStr_assoc (a b c : String) :
    minStr (minStr a b) c = minStr a (minStr b c) := by
  unfold minStr
  by_cases h1 : b.data < a.data <;> by_cases h2 : c.data < b.data <;>
    simp only [h1, h2, if_true, if_false]
  · rw [if_pos (lt_trans h2 h1)]
  · rw [if_neg (fun hca => h2 (lt_of_lt_of_le hca (le_of_not_lt h1)))]

theorem combineMin_none_right (a : Option String) : combineMin a none = a := by
  cases a <;> rfl

theorem combineMin_comm (a b : Option String) : combineMin a b = combineMin b a := by
  cases a <;> cases b <;> simp [combineMin, minStr_comm]

theorem combineMin_assoc (a b c : Option String) :
    combineMin (combineMin a b) c = combineMin a (combineMin b c) := by
  cases a <;> cases b <;> cases c <;> simp [combineMin, minStr_assoc]

theorem alookup_insertMinIface_self (acc : List (String × String)) (n i : String) :
    alookup n (insertMinIface acc n i)
      = some (match alookup n acc with
              | none => i
              | some j => if i.data < j.data then i else j) := by
  induction acc with
  | nil => simp [insertMinIface, alookup]
  | cons hd rest ih =>
    obtain ⟨m, j⟩ := hd
    by_cases hm : m = n
    · subst hm
      by_cases hij : i.data < j.data <;>
        simp [insertMinIface, alookup, hij]
    · simp [insertMinIface, alookup, hm, ih]

theorem alookup_insertMinIface_other (acc : List (String × String))
    (n i m' : String) (h : m' ≠ n) :
    alookup m' (insertMinIface acc n i) = alookup m' acc := by
  induction acc with
  | nil => simp [insertMinIface, alookup, Ne.symm h]
  | cons hd rest ih =>
    obtain ⟨m, j⟩ := hd
    by_cases hm : m = n
    · subst hm
      by_cases hij : i.data < j.data <;>
        simp [insertMinIface, alookup, hij, Ne.symm h]
    · simp [insertMinIface, alookup, hm, ih]

theorem alookup_insertMinIface_combine (acc : List (String × String))
    (n i : String) :
    alookup n (insertMinIface acc n i) = combineMin (alookup n acc) (some i) := by
  rw [alookup_insertMinIface_self]
  cases h : alookup n acc <;> simp [combineMin, minStr]

theorem minIfaceOf_cons (area n : String)
    (kv : (String × String) × AdjacencyValue)
    (rest : List ((String × String) × AdjacencyValue)) :
    minIfaceOf area n (kv :: rest)
      = if kv.2.area = area ∧ kv.2.isRestarting = false ∧ kv.1.1 = n then
          combineMin (minIfaceOf area n rest) (some kv.1.2)
        else minIfaceOf area n rest := rfl

theorem fold_peerStep (area : String)
    (l : List ((String × String) × AdjacencyValue)) :
    ∀ (acc : List (String × String)) (n : String),
    alookup n (l.foldl (peerStep area) acc)
      = combineMin (alookup n acc) (minIfaceOf area n l) := by
  induction l with
  | nil =>
    intro acc n
    simp [minIfaceOf, combineMin_none_right]
  | cons kv rest ih =>
    intro acc n
    rw [List.foldl_cons]
    by_cases hel : kv.2.area = area ∧ kv.2.isRestarting = false
    · have hg : ¬(kv.2.area ≠ area ∨ kv.2.isRestarting = true) := by
        simp [hel.1, hel.2]
      have hstep : peerStep area acc kv = insertMinIface acc kv.1.1 kv.1.2 := by
        unfold peerStep
        rw [if_neg hg]
      by_cases hn : kv.1.1 = n
      · rw [hstep, ih, hn, alookup_insertMinIface_combine]
        rw [minIfaceOf_cons, if_pos ⟨hel.1, hel.2, hn⟩]
        rw [combineMin_assoc, combineMin_comm (some kv.1.2) (minIfaceOf area n rest)]
      · rw [hstep, ih, alookup_insertMinIface_other acc kv.1.1 kv.1.2 n (Ne.symm hn)]
        rw [minIfaceOf_cons, if_neg (fun hc => hn hc.2.2)]
    · have hg : kv.2.area ≠ area ∨ kv.2.isRestarting = true := by
        rcases not_and_or.mp hel with h | h
        · exact Or.inl h
        · exact Or.inr (by simpa using h)
      have hstep : peerStep area acc kv = acc := by
        unfold peerStep
        rw [if_pos hg]
      rw [hstep, ih]
      rw [minIfaceOf_cons, if_neg (fun hc => hel ⟨hc.1, hc.2.1⟩)]

theorem minStr_data_le_left (a b : String) : (minStr a b).data ≤ a.data := by
  unfold minStr
  by_cases h : b.data < a.data
  · rw [if_pos h]
    exact le_of_lt h
  · rw [if_neg h]

theorem minStr_data_le_right (a b : String) : (minStr a b).data ≤ b.data := by
  unfold minStr
  by_cases h : b.data < a.data
  · rw [if_pos h]
  · rw [if_neg h]
    exact le_of_not_lt h

theorem combineMin_some_right_isSome (a : Option String) (y : String) :
    (combineMin a (some y)).isSome = true := by
  cases a <;> rfl

theorem minIfaceOf_mem (area n : String)
    (l : List ((String × String) × AdjacencyValue)) :
    ∀ i, minIfaceOf area n l = some i →
      ∃ av, ((n, i), av) ∈ l ∧ av.area = area ∧ av.isRestarting = false := by
  induction l with
  | nil => intro i h; simp [minIfaceOf] at h
  | cons kv rest ih =>
    intro i h
    rw [minIfaceOf_cons] at h
    by_cases hc : kv.2.area = area ∧ kv.2.isRestarting = false ∧ kv.1.1 = n
    · rw [if_pos hc] at h
      cases hm : minIfaceOf area n rest with
      | none =>
        rw [hm] at h
        have hi : i = kv.1.2 := by
          simpa [combineMin] using h.symm
        subst hi
        refine ⟨kv.2, ?_, hc.1, hc.2.1⟩
        have hkv : kv = ((n, kv.1.2), kv.2) := by
          have h1 : kv.1 = (n, kv.1.2) := by
            rw [← hc.2.2]
          rw [← h1]
        rw [← hkv]
        exact List.mem_cons_self kv rest
      | some j =>
        rw [hm] at h
        have hi : i = minStr j kv.1.2 := by
          simpa [combineMin] using h.symm
        subst hi
        unfold minStr
        by_cases hlt : kv.1.2.data < j.data
        · rw [if_pos hlt]
          refine ⟨kv.2, ?_, hc.1, hc.2.1⟩
          have hkv : kv = ((n, kv.1.2), kv.2) := by
            have h1 : kv.1 = (n, kv.1.2) := by
              rw [← hc.2.2]
            rw [← h1]
          rw [← hkv]
          exact List.mem_cons_self kv rest
        · rw [if_neg hlt]
          obtain ⟨av, hmem, ha, hr⟩ := ih j hm
          exact ⟨av, List.mem_cons_of_mem kv hmem, ha, hr⟩
    · rw [if_neg hc] at h
      obtain ⟨av, hmem, ha, hr⟩ := ih i h
      exact ⟨av, List.mem_cons_of_mem kv hmem, ha, hr⟩

theorem minIfaceOf_none (area n : String)
    (l : List ((String × String) × AdjacencyValue)) :
    minIfaceOf area n l = none →
      ∀ i2 av2, ((n, i2), av2) ∈ l → av2.area = area →
        av2.isRestarting = false → False := by
  induction l with
  | nil => intro _ i2 av2 hmem; simp at hmem
  | cons kv rest ih =>
    intro h i2 av2 hmem ha hr
    rw [minIfaceOf_cons] at h
    by_cases hc : kv.2.area = area ∧ kv.2.isRestarting = false ∧ kv.1.1 = n
    · rw [if_pos hc] at h
      have := combineMin_some_right_isSome (minIfaceOf area n rest) kv.1.2
      rw [h] at this
      simp at this
    · rw [if_neg hc] at h
      rcases List.mem_cons.mp hmem with heq | hmem2
      · exact hc ⟨by rw [← heq]; exact ha,
          by rw [← heq]; exact hr, by rw [← heq]⟩
      · exact ih h i2 av2 hmem2 ha hr

theorem minIfaceOf_le (area n : String)
    (l : List ((String × String) × AdjacencyValue)) :
    ∀ i i2 av2, minIfaceOf area n l = some i →
      ((n, i2), av2) ∈ l → av2.area = area → av2.isRestarting = false →
      i.data ≤ i2.data := by
  induction l with
  | nil => intro i i2 av2 _ hmem; simp at hmem
  | cons kv rest ih =>
    intro i i2 av2 h hmem ha hr
    rw [minIfaceOf_cons] at h
    rcases List.mem_cons.mp hmem with heq | hmem2
    · have hc : kv.2.area = area ∧ kv.2.isRestarting = false ∧ kv.1.1 = n := by
        refine ⟨?_, ?_, ?_⟩
        · rw [← heq]; exact ha
        · rw [← heq]; exact hr
        · rw [← heq]
      rw [if_pos hc] at h
      have hifn : kv.1.2 = i2 := by
        rw [← heq]
      cases hm : minIfaceOf area n rest with
      | none =>
        rw [hm] at h
        have hi : i = kv.1.2 := by simpa [combineMin] using h.symm
        rw [hi, hifn]
      | some j =>
        rw [hm] at h
        have hi : i = minStr j kv.1.2 := by simpa [combineMin] using h.symm
        rw [hi, ← hifn]
        exact minStr_data_le_right j kv.1.2
    · by_cases hc : kv.2.area = area ∧ kv.2.isRestarting = false ∧ kv.1.1 = n
      · rw [if_pos hc] at h
        cases hm : minIfaceOf area n rest with
        | none => exact absurd hmem2 (fun hmem3 =>
            minIfaceOf_none area n rest hm i2 av2 hmem3 ha hr)
        | some j =>
          rw [hm] at h
          have hi : i = minStr j kv.1.2 := by simpa [combineMin] using h.symm
          have h1 : i.data ≤ j.data := by
            rw [hi]
            exact minStr_data_le_left j kv.1.2
          exact le_trans h1 (ih j i2 av2 hm hmem2 ha hr)
      · rw [if_neg hc] at h
        exact ih i i2 av2 h hmem2 ha hr

theorem mem_keys_insertMinIface (acc : List (String × String)) (n i m' : String) :
    m' ∈ (insertMinIface acc n i).map Prod.fst
      ↔ (m' ∈ acc.map Prod.fst ∨ m' = n) := by
  induction acc with
  | nil => simp [insertMinIface]
  | cons hd rest ih =>
    obtain ⟨m, j⟩ := hd
    by_cases hm : m = n
    · subst hm
      by_cases hij : i.data < j.data <;>
        simp [insertMinIface, hij] <;> intro h2 <;> exact Or.inl h2
    · simp [insertMinIface, hm, ih, or_assoc]

theorem nodup_keys_insertMinIface (acc : List (String × String)) (n i : String)
    (h : (acc.map Prod.fst).Nodup) :
    ((insertMinIface acc n i).map Prod.fst).Nodup := by
  induction acc with
  | nil => simp [insertMinIface]
  | cons hd rest ih =>
    obtain ⟨m, j⟩ := hd
    simp only [List.map_cons, List.nodup_cons] at h
    by_cases hm : m = n
    · subst hm
      by_cases hij : i.data < j.data <;>
        simp [insertMinIface, hij, h.1, h.2]
    · have ihr := ih h.2
      simp only [insertMinIface, if_neg hm, List.map_cons, List.nodup_cons]
      refine ⟨?_, ihr⟩
      intro hmem
      rcases (mem_keys_insertMinIface rest n i m).mp hmem with h2 | h2
      · exact h.1 h2
      · exact hm h2

theorem nodup_keys_fold_peerStep (area : String)
    (l : List ((String × String) × AdjacencyValue)) :
    ∀ acc : List (String × String), (acc.map Prod.fst).Nodup →
      ((l.foldl (peerStep area) acc).map Prod.fst).Nodup := by
  induction l with
  | nil => intro acc h; exact h
  | cons kv rest ih =>
    intro acc h
    rw [List.foldl_cons]
    unfold peerStep
    by_cases hg : kv.2.area ≠ area ∨ kv.2.isRestarting = true
    · rw [if_pos hg]
      exact ih acc h
    · rw [if_neg hg]
      exact ih _ (nodup_keys_insertMinIface acc kv.1.1 kv.1.2 h)

theorem alookup_mem {κ ν : Type} [DecidableEq κ] (l : List (κ × ν)) (k : κ)
    (v : ν) (h : alookup k l = some v) : (k, v) ∈ l := by
  induction l with
  | nil => simp [alookup] at h
  | cons hd rest ih =>
    obtain ⟨k1, v1⟩ := hd
    by_cases hk : k1 = k
    · subst hk
      rw [alookup, if_pos rfl] at h
      rw [Option.some_inj] at h
      subst h
      exact List.mem_cons_self _ _
    · rw [alookup, if_neg hk] at h
      exact List.mem_cons_of_mem _ (ih h)

theorem mem_alookup_of_nodup {κ ν : Type} [DecidableEq κ] (l : List (κ × ν))
    (hnd : (l.map Prod.fst).Nodup) (k : κ) (v : ν) (h : (k, v) ∈ l) :
    alookup k l = some v := by
  induction l with
  | nil => simp at h
  | cons hd rest ih =>
    obtain ⟨k1, v1⟩ := hd
    simp only [List.map_cons, List.nodup_cons] at hnd
    rcases List.mem_cons.mp h with heq | hmem
    · rw [← heq, alookup, if_pos rfl]
    · have hk : k1 ≠ k := by
        intro hEq
        subst hEq
        exact hnd.1 (List.mem_map.mpr ⟨(k1, v), hmem, rfl⟩)
      rw [alookup, if_neg hk]
      exact ih hnd.2 hmem

theorem keys_filterMap_peers_sublist
    (adjacencies : List ((String × String) × AdjacencyValue))
    (l : List (String × String)) :
    ((l.filterMap (fun ni => (alookup (ni.1, ni.2) adjacencies).map
        (fun av => (ni.1, av.peerSpec)))).map Prod.fst).Sublist
      (l.map Prod.fst) := by
  induction l with
  | nil => simp
  | cons ni rest ih =>
    cases halk : alookup (ni.1, ni.2) adjacencies with
    | none =>
      simp only [List.filterMap_cons, halk, Option.map_none, List.map_cons]
      exact ih.cons ni.1
    | some av =>
      simp only [List.filterMap_cons, halk, Option.map_some, List.map_cons]
      exact ih.cons₂ ni.1

theorem alookup_fold_peerStep (area : String)
    (adjacencies : List ((String × String) × AdjacencyValue)) (n : String) :
    alookup n (adjacencies.foldl (peerStep area) [])
      = minIfaceOf area n adjacencies := by
  have h := fold_peerStep area adjacencies [] n
  simpa [alookup, combineMin] using h

theorem mem_fold_peerStep (area : String)
    (adjacencies : List ((String × String) × AdjacencyValue)) (n i : String) :
    (n, i) ∈ adjacencies.foldl (peerStep area) []
      ↔ minIfaceOf area n adjacencies = some i := by
  have hnd : ((adjacencies.foldl (peerStep area) []).map Prod.fst).Nodup :=
    nodup_keys_fold_peerStep area adjacencies [] (by simp)
  constructor
  · intro h
    rw [← alookup_fold_peerStep area adjacencies n]
    exact mem_alookup_of_nodup _ hnd n i h
  · intro h
    refine alookup_mem _ n i ?_
    rw [alookup_fold_peerStep area adjacencies n]
    exact h

/-- Claim C6: for every adjacency map and area, the computed KvStore peer set
contains exactly one entry per neighbor that has at least one non-restarting
adjacency in that area; that entry's peer spec is taken from the adjacency
whose local interface name is the byte-lexicographic minimum among that
neighbor's eligible interfaces; restarting adjacencies are excluded from the
peer set; and neighborRestartingEvent only sets the restarting bit, keeping
the entry in the adjacency database. -/
theorem getPeersFromAdjacencies_spec
    (adjacencies : List ((String × String) × AdjacencyValue)) (area : String)
    (hnd : (adjacencies.map Prod.fst).Nodup) (n : String) :
    ((∃ spec, (n, spec) ∈ getPeersFromAdjacencies adjacencies area) ↔
      ∃ i av, ((n, i), av) ∈ adjacencies ∧ av.area = area
        ∧ av.isRestarting = false)
    ∧ (∀ spec, (n, spec) ∈ getPeersFromAdjacencies adjacencies area →
        ∃ i av, ((n, i), av) ∈ adjacencies ∧ av.area = area
          ∧ av.isRestarting = false ∧ spec = av.peerSpec
          ∧ ∀ i2 av2, ((n, i2), av2) ∈ adjacencies → av2.area = area →
              av2.isRestarting = false → i.data ≤ i2.data)
    ∧ ((getPeersFromAdjacencies adjacencies area).map Prod.fst).Nodup
    ∧ (∀ remote ifn : String,
        (neighborRestartingEvent remote ifn adjacencies).map Prod.fst
          = adjacencies.map Prod.fst
        ∧ ∀ av, ((remote, ifn), av) ∈ adjacencies →
            ((remote, ifn), { av with isRestarting := true })
              ∈ neighborRestartingEvent remote ifn adjacencies) := by
  have hndN : ((adjacencies.foldl (peerStep area) []).map Prod.fst).Nodup :=
    nodup_keys_fold_peerStep area adjacencies [] (by simp)
  have hpeers : getPeersFromAdjacencies adjacencies area
      = (adjacencies.foldl (peerStep area) []).filterMap
          (fun ni => (alookup (ni.1, ni.2) adjacencies).map
            (fun av => (ni.1, av.peerSpec))) := rfl
  refine ⟨?_, ?_, ?_, ?_⟩
  · constructor
    · rintro ⟨spec, hmem⟩
      rw [hpeers] at hmem
      rcases List.mem_filterMap.mp hmem with ⟨ni, hniN, hf⟩
      cases halk : alookup (ni.1, ni.2) adjacencies with
      | none => rw [halk] at hf; exact Option.noConfusion hf
      | some av =>
        rw [halk] at hf
        simp only [Option.map_some'] at hf
        rw [Option.some_inj] at hf
        have hni1 : ni.1 = n := congrArg Prod.fst hf
        have hmin : minIfaceOf area n adjacencies = some ni.2 := by
          rw [← hni1]
          exact (mem_fold_peerStep area adjacencies ni.1 ni.2).mp (by
            rw [show (ni.1, ni.2) = ni from rfl]
            exact hniN)
        obtain ⟨av2, hmem2, ha2, hr2⟩ := minIfaceOf_mem area n adjacencies ni.2 hmin
        exact ⟨ni.2, av2, hmem2, ha2, hr2⟩
    · rintro ⟨i, av, hmem, ha, hr⟩
      cases hm : minIfaceOf area n adjacencies with
      | none => exact (minIfaceOf_none area n adjacencies hm i av hmem ha hr).elim
      | some i0 =>
        obtain ⟨av0, hmem0, _, _⟩ := minIfaceOf_mem area n adjacencies i0 hm
        have halk : alookup (n, i0) adjacencies = some av0 :=
          mem_alookup_of_nodup adjacencies hnd (n, i0) av0 hmem0
        refine ⟨av0.peerSpec, ?_⟩
        rw [hpeers]
        refine List.mem_filterMap.mpr ⟨(n, i0), ?_, ?_⟩
        · exact (mem_fold_peerStep area adjacencies n i0).mpr hm
        · rw [halk]
          rfl
  · intro spec hmem
    rw [hpeers] at hmem
    rcases List.mem_filterMap.mp hmem with ⟨ni, hniN, hf⟩
    cases halk : alookup (ni.1, ni.2) adjacencies with
    | none => rw [halk] at hf; exact Option.noConfusion hf
    | some av =>
      rw [halk] at hf
      simp only [Option.map_some'] at hf
      rw [Option.some_inj] at hf
      have hni1 : ni.1 = n := congrArg Prod.fst hf
      have hspec : spec = av.peerSpec := (congrArg Prod.snd hf).symm
      have hmin : minIfaceOf area n adjacencies = some ni.2 := by
        rw [← hni1]
        exact (mem_fold_peerStep area adjacencies ni.1 ni.2).mp (by
          rw [show (ni.1, ni.2) = ni from rfl]
          exact hniN)
      obtain ⟨av2, hmem2, ha2, hr2⟩ := minIfaceOf_mem area n adjacencies ni.2 hmin
      have halk2 : alookup (n, ni.2) adjacencies = some av2 :=
        mem_alookup_of_nodup adjacencies hnd (n, ni.2) av2 hmem2
      have hav : av = av2 := by
        rw [← hni1] at halk2
        rw [halk] at halk2
        exact Option.some_inj.mp halk2
      subst hav
      refine ⟨ni.2, av, hmem2, ha2, hr2, hspec, ?_⟩
      intro i2 av3 hmem3 ha3 hr3
      exact minIfaceOf_le area n adjacencies ni.2 i2 av3 hmin hmem3 ha3 hr3
  · rw [hpeers]
    exact List.Nodup.sublist
      (keys_filterMap_peers_sublist adjacencies
        (adjacencies.foldl (peerStep area) [])) hndN
  · intro remote ifn
    constructor
    · unfold neighborRestartingEvent
      rw [List.map_map]
      apply List.map_congr_left
      intro kv _
      by_cases hk : kv.1 = (remote, ifn) <;> simp [hk]
    · intro av hmem
      unfold neighborRestartingEvent
      refine List.mem_map.mpr ⟨((remote, ifn), av), hmem, ?_⟩
      simp

theorem getPeersFromAdjacencies_spec_witness :
    (∃ spec, ("n2", spec) ∈ getPeersFromAdjacencies
      [(("n2", "if_b"), ⟨⟨"b", "b", false⟩, ⟨"n2", "if_b", 1, false⟩, false, "0"⟩),
       (("n2", "if_a"), ⟨⟨"a", "a", false⟩, ⟨"n2", "if_a", 1, false⟩, false, "0"⟩)]
      "0") :=
  (getPeersFromAdjacencies_spec
      [(("n2", "if_b"), ⟨⟨"b", "b", false⟩, ⟨"n2", "if_b", 1, false⟩, false, "0"⟩),
       (("n2", "if_a"), ⟨⟨"a", "a", false⟩, ⟨"n2", "if_a", 1, false⟩, false, "0"⟩)]
      "0" (by decide) "n2").1.mpr
    ⟨"if_a", ⟨⟨"a", "a", false⟩, ⟨"n2", "if_a", 1, false⟩, false, "0"⟩,
     by decide, rfl, rfl⟩

theorem lpmStep_none (W : Nat) (input r : CidrT) :
    lpmStep W input none r = if matchesRoute W r input then some r else none := by
  simp [lpmStep]

theorem lpmStep_some (W : Nat) (input r b0 : CidrT) :
    lpmStep W input (some b0) r =
      if matchesRoute W r input && decide (b0.len < r.len) then some r
      else some b0 := rfl

theorem lpm_fold_spec (W : Nat) (input : CidrT) (l : List CidrT) :
    ∀ best : Option CidrT,
      (∀ b, best = some b → matchesRoute W b input = true) →
      ((l.foldl (lpmStep W input) best) = none ↔
        (best = none ∧ ∀ r ∈ l, matchesRoute W r input = false))
      ∧ (∀ p, (l.foldl (lpmStep W input) best) = some p →
          matchesRoute W p input = true
          ∧ (p ∈ l ∨ best = some p)
          ∧ (∀ r ∈ l, matchesRoute W r input = true → r.len ≤ p.len)
          ∧ (∀ b, best = some b → b.len ≤ p.len)) := by
  induction l with
  | nil =>
    intro best hbest
    constructor
    · simp
    · intro p hp
      simp only [List.foldl_nil] at hp
      refine ⟨hbest p hp, Or.inr hp, by simp, ?_⟩
      intro b hb
      rw [hp] at hb
      rw [Option.some_inj] at hb
      rw [hb]
  | cons r rest ih =>
    intro best hbest
    rw [List.foldl_cons]
    cases best with
    | none =>
      cases hm : matchesRoute W r input with
      | false =>
        have hstep : lpmStep W input none r = none := by
          rw [lpmStep_none, if_neg (by rw [hm]; exact Bool.false_ne_true)]
        rw [hstep]
        have ihr := ih none (fun b hb => Option.noConfusion hb)
        constructor
        · rw [ihr.1]
          constructor
          · rintro ⟨h1, h2⟩
            refine ⟨rfl, ?_⟩
            intro r2 hr2
            rcases List.mem_cons.mp hr2 with h | h
            · rw [h]
              exact hm
            · exact h2 r2 h
          · rintro ⟨h1, h2⟩
            exact ⟨rfl, fun r2 hr2 => h2 r2 (List.mem_cons_of_mem r hr2)⟩
        · intro p hp
          obtain ⟨hmp, hmem, hle, _⟩ := ihr.2 p hp
          refine ⟨hmp, ?_, ?_, ?_⟩
          · rcases hmem with h | h
            · exact Or.inl (List.mem_cons_of_mem r h)
            · exact Option.noConfusion h
          · intro r2 hr2 hmr2
            rcases List.mem_cons.mp hr2 with h | h
            · subst h
              rw [hm] at hmr2
              exact absurd hmr2 Bool.false_ne_true
            · exact hle r2 h hmr2
          · intro b hbe
            exact Option.noConfusion hbe
      | true =>
        have hstep : lpmStep W input none r = some r := by
          rw [lpmStep_none, if_pos hm]
        rw [hstep]
        have ihr := ih (some r) (fun b hb => by
          rw [Option.some_inj] at hb
          rw [← hb]
          exact hm)
        constructor
        · constructor
          · intro h1
            obtain ⟨h2, _⟩ := ihr.1.mp h1
            exact Option.noConfusion h2
          · rintro ⟨_, h2⟩
            have hcontra := h2 r (List.mem_cons_self r rest)
            rw [hm] at hcontra
            exact Bool.noConfusion hcontra
        · intro p hp
          obtain ⟨hmp, hmem, hle, hble⟩ := ihr.2 p hp
          refine ⟨hmp, ?_, ?_, ?_⟩
          · rcases hmem with h | h
            · exact Or.inl (List.mem_cons_of_mem r h)
            · rw [Option.some_inj] at h
              exact Or.inl (h ▸ List.mem_cons_self r rest)
          · intro r2 hr2 hmr2
            rcases List.mem_cons.mp hr2 with h | h
            · rw [h]
              exact hble r rfl
            · exact hle r2 h hmr2
          · intro b hbe
            exact Option.noConfusion hbe
    | some b0 =>
      cases hcnd : (matchesRoute W r input && decide (b0.len < r.len)) with
      | true =>
        obtain ⟨hmr, hlen⟩ :=
          (by simpa using hcnd : matchesRoute W r input = true ∧ b0.len < r.len)
        have hstep : lpmStep W input (some b0) r = some r := by
          rw [lpmStep_some, if_pos hcnd]
        rw [hstep]
        have ihr := ih (some r) (fun b hb => by
          rw [Option.some_inj] at hb
          rw [← hb]
          exact hmr)
        constructor
        · constructor
          · intro h1
            obtain ⟨h2, _⟩ := ihr.1.mp h1
            exact Option.noConfusion h2
          · rintro ⟨h1, _⟩
            exact Option.noConfusion h1
        · intro p hp
          obtain ⟨hmp, hmem, hle, hble⟩ := ihr.2 p hp
          refine ⟨hmp, ?_, ?_, ?_⟩
          · rcases hmem with h | h
            · exact Or.inl (List.mem_cons_of_mem r h)
            · rw [Option.some_inj] at h
              exact Or.inl (h ▸ List.mem_cons_self r rest)
          · intro r2 hr2 hmr2
            rcases List.mem_cons.mp hr2 with h | h
            · rw [h]
              exact hble r rfl
            · exact hle r2 h hmr2
          · intro b hbe
            rw [Option.some_inj] at hbe
            rw [← hbe]
            exact le_trans (le_of_lt hlen) (hble r rfl)
      | false =>
        have hstep : lpmStep W input (some b0) r = some b0 := by
          rw [lpmStep_some, if_neg (by rw [hcnd]; exact Bool.false_ne_true)]
        rw [hstep]
        have ihr := ih (some b0) hbest
        constructor
        · constructor
          · intro h1
            obtain ⟨h2, _⟩ := ihr.1.mp h1
            exact Option.noConfusion h2
          · rintro ⟨h1, _⟩
            exact Option.noConfusion h1
        · intro p hp
          obtain ⟨hmp, hmem, hle, hble⟩ := ihr.2 p hp
          refine ⟨hmp, ?_, ?_, hble⟩
          · rcases hmem with h | h
            · exact Or.inl (List.mem_cons_of_mem r h)
            · exact Or.inr h
          · intro r2 hr2 hmr2
            rcases List.mem_cons.mp hr2 with h | h
            · subst h
              have hnl : ¬ (b0.len < r2.len) := by
                intro hl
                have hcontra : (matchesRoute W r2 input && decide (b0.len < r2.len)) = true := by
                  rw [hmr2]
                  simp [hl]
                rw [hcnd] at hcontra
                exact Bool.noConfusion hcontra
              exact le_trans (le_of_not_lt hnl) (hble b0 rfl)
            · exact hle r2 h hmr2

/-- Claim C9: for every unicast route table and input network,
longestPrefixMatch returns some route prefix that is in the table, contains
the input (its mask is no longer than the input's and the leading bits
agree), and has the greatest mask length among all table prefixes containing
the input; it returns none exactly when no prefix in the table contains the
input. -/
theorem longestPrefixMatch_spec (W : Nat) (input : CidrT) (routes : List CidrT) :
    (longestPrefixMatch W input routes = none ↔
      ∀ r ∈ routes, matchesRoute W r input = false)
    ∧ (∀ p, longestPrefixMatch W input routes = some p →
        p ∈ routes ∧ matchesRoute W p input = true
        ∧ ∀ r ∈ routes, matchesRoute W r input = true → r.len ≤ p.len) := by
  have h := lpm_fold_spec W input routes none (fun b hb => Option.noConfusion hb)
  constructor
  · rw [show longestPrefixMatch W input routes
        = routes.foldl (lpmStep W input) none from rfl]
    rw [h.1]
    simp
  · intro p hp
    obtain ⟨hm, hmem, hle, _⟩ := h.2 p hp
    refine ⟨?_, hm, hle⟩
    rcases hmem with h2 | h2
    · exact h2
    · exact Option.noConfusion h2

theorem longestPrefixMatch_spec_witness :
    ((⟨3232240656, 28⟩ : CidrT) ∈
        ([⟨3232235520, 16⟩, ⟨3232235520, 20⟩, ⟨3232235520, 24⟩,
          ⟨3232240656, 28⟩] : List CidrT)
      ∧ matchesRoute 32 ⟨3232240656, 28⟩ ⟨3232240659, 32⟩ = true)
    ∧ longestPrefixMatch 32 ⟨3232235520, 14⟩
        ([⟨3232235520, 16⟩, ⟨3232235520, 20⟩, ⟨3232235520, 24⟩,
          ⟨3232240656, 28⟩] : List CidrT) = none :=
  ⟨⟨((longestPrefixMatch_spec 32 ⟨3232240659, 32⟩
        [⟨3232235520, 16⟩, ⟨3232235520, 20⟩, ⟨3232235520, 24⟩,
         ⟨3232240656, 28⟩]).2 ⟨3232240656, 28⟩ (by decide)).1,
    ((longestPrefixMatch_spec 32 ⟨3232240659, 32⟩
        [⟨3232235520, 16⟩, ⟨3232235520, 20⟩, ⟨3232235520, 24⟩,
         ⟨3232240656, 28⟩]).2 ⟨3232240656, 28⟩ (by decide)).2.1⟩,
   (longestPrefixMatch_spec 32 ⟨3232235520, 14⟩
        [⟨3232235520, 16⟩, ⟨3232235520, 20⟩, ⟨3232235520, 24⟩,
         ⟨3232240656, 28⟩]).1.mpr (by decide)⟩

end OpenR
